import Mathlib

/-!
# Verification of the Algorithmic Trading Simulator core

Shallow embedding of the C++ sources (`src/`) of the trading simulator:
`order.hpp`, `order_book.cpp`, `trader.cpp`, `market.cpp`, `simulation.cpp`,
`main.cpp`.  Doubles are modelled as rationals (only ordering and exact
arithmetic on them matter for the verified properties), C++ `int` as `ℤ`
(no overflow is relevant to the properties below), and the two
`std::map`-backed sides of the order book as association lists ordered the
way the maps iterate (buy side descending by price, sell side ascending).
-/

namespace TradingSim

/-- Enum `OrderType` from `order.hpp`. -/
inductive OrderType where
  | BUY
  | SELL
deriving DecidableEq, Repr

/-- Enum `OrderStatus` from `order.hpp`. -/
inductive OrderStatus where
  | PENDING
  | PARTIALLY_FILLED
  | FILLED
  | CANCELLED
deriving DecidableEq, Repr

/-- Record `struct Order` from `order.hpp`. -/
structure Order where
  order_id : ℤ
  trader_id : ℤ
  type : OrderType
  price : ℚ
  quantity : ℤ
  filled_quantity : ℤ
  status : OrderStatus
  timestamp : ℚ
deriving DecidableEq, Repr

/-- Method `Order::getRemainingQuantity` from `order.hpp`: `quantity - filled_quantity`. -/
def Order.getRemainingQuantity (o : Order) : ℤ :=
  o.quantity - o.filled_quantity

/-- Method `Order::isFilled` from `order.hpp`: `filled_quantity >= quantity`. -/
def Order.isFilled (o : Order) : Bool :=
  o.quantity ≤ o.filled_quantity

/-- The six-argument `Order` constructor from `order.hpp`:
`filled_quantity = 0`, `status = PENDING`. -/
def mkOrder (id t_id : ℤ) (t : OrderType) (p : ℚ) (q : ℤ) (ts : ℚ) : Order :=
  { order_id := id, trader_id := t_id, type := t, price := p,
    quantity := q, filled_quantity := 0, status := OrderStatus.PENDING,
    timestamp := ts }

/-- Record `struct ExecutedTrade` from `order.hpp`. -/
structure ExecutedTrade where
  trade_id : ℤ
  buy_order_id : ℤ
  sell_order_id : ℤ
  buyer_id : ℤ
  seller_id : ℤ
  price : ℚ
  quantity : ℤ
  timestamp : ℚ
deriving DecidableEq, Repr

/-- Record `struct Trade` from `trader.hpp` (the record `Trader::executeTrade` consumes). -/
structure Trade where
  trader_id : ℤ
  price : ℚ
  quantity : ℤ
  is_buy : Bool
  timestamp : ℚ
deriving DecidableEq, Repr

/-- The numeric state of a `Trader` (`trader.hpp`) touched by settlement:
`cash`, `holdings`, `trades_executed` (plus identity and profit fields). -/
structure Trader where
  id : ℤ
  cash : ℚ
  holdings : ℤ
  total_profit : ℚ
  trades_executed : ℤ
deriving DecidableEq, Repr

/-- Method `Trader::executeTrade` from `trader.cpp` lines 178-202: a zero-quantity
trade is ignored; a buy is applied only when `cash >= price*quantity`; a
sell only when `holdings >= quantity`; otherwise the state is untouched. -/
def Trader.executeTrade (tr : Trader) (t : Trade) : Trader :=
  if t.quantity = 0 then tr
  else if t.is_buy then
    let cost := t.price * (t.quantity : ℚ)
    if cost ≤ tr.cash then
      { tr with cash := tr.cash - cost,
                holdings := tr.holdings + t.quantity,
                trades_executed := tr.trades_executed + 1 }
    else tr
  else
    if t.quantity ≤ tr.holdings then
      { tr with cash := tr.cash + t.price * (t.quantity : ℚ),
                holdings := tr.holdings - t.quantity,
                trades_executed := tr.trades_executed + 1 }
    else tr

/-- Modelled from the spec: `Trader::executeOrder(is_buy, price, qty)` is
declared in `trader.hpp` and called by the feedback phase of the engine
(`simulation.cpp` lines 150-151) but its definition is missing from `src/`;
per spec §4.3 it performs the same guarded settlement as
`Trader::executeTrade` ("decreases cash and increases holdings (buy) or the
reverse (sell); guarded so holdings/cash never go negative; increments trade
counter"). -/
def Trader.executeOrder (tr : Trader) (is_buy : Bool) (price : ℚ) (qty : ℤ) : Trader :=
  tr.executeTrade
    { trader_id := tr.id, price := price, quantity := qty,
      is_buy := is_buy, timestamp := 0 }

/-! ## Market (`market.cpp`) -/

/-- The state of `Market` (`market.hpp`). The Mersenne-twister noise source is
externalized: each `updatePrice` call consumes one noise sample, passed
explicitly. -/
structure Market where
  current_price : ℚ
  base_price : ℚ
  price_history : List ℚ
  buy_pressure : ℤ
  sell_pressure : ℤ
deriving DecidableEq, Repr

/-- Constructor `Market::Market(initial_price)` from `market.cpp` lines 5-11 (without the
RNG member, which is externalized). -/
def mkMarket (initial_price : ℚ) : Market :=
  { current_price := initial_price, base_price := initial_price,
    price_history := [initial_price], buy_pressure := 0, sell_pressure := 0 }

/-- Decay step `static_cast<int>(x * 0.8)`: scale an integer pressure accumulator by 0.8
and truncate toward zero, as the C++ cast does. -/
def decayPressure (x : ℤ) : ℤ :=
  if 0 ≤ x then (4 * x) / 5 else -((4 * (-x)) / 5)

/-- Method `Market::updatePrice(buy_orders, sell_orders)` from `market.cpp` lines
13-43, with the noise draw (uniform in `[-0.5, 0.5]`) passed explicitly. -/
def Market.updatePrice (m : Market) (buy_orders sell_orders : ℤ) (noise : ℚ) : Market :=
  let bp := m.buy_pressure + buy_orders
  let sp := m.sell_pressure + sell_orders
  let pressure_diff : ℚ := ((bp - sp : ℤ) : ℚ) * (1/10)
  let price_change := pressure_diff + noise
  let moved := m.current_price + price_change
  let clamped := max (m.base_price * (1/5)) (min moved (m.base_price * 3))
  let hist := m.price_history ++ [clamped]
  let hist' := if 1000 < hist.length then hist.tail else hist
  { current_price := clamped, base_price := m.base_price,
    price_history := hist',
    buy_pressure := decayPressure bp, sell_pressure := decayPressure sp }

/-- One tick of market input: order-flow counts and the noise sample drawn
inside `updatePrice`. -/
def Market.updateRun (m : Market) (ticks : List (ℤ × ℤ × ℚ)) : Market :=
  ticks.foldl (fun mk t => mk.updatePrice t.1 t.2.1 t.2.2) m

/-! ## Simulation time scale (`simulation.cpp`) -/

/-- The part of `TradingSimulation` state governed by `setTimeScale`. -/
structure SimClock where
  current_time : ℚ
  time_step : ℚ
deriving DecidableEq, Repr

/-- Method `TradingSimulation::setTimeScale(scale)` from `simulation.cpp` lines
54-59: a non-positive scale is replaced by `1.0`; `time_step = 0.1 / scale`. -/
def setTimeScale (sim : SimClock) (scale : ℚ) : SimClock :=
  let s := if scale ≤ 0 then 1 else scale
  { sim with time_step := (1/10) / s }

/-! ## Ensemble partition (`main.cpp` lines 134-138) -/

/-- Expression `sims_for_this_rank = base_sims + (mpi_rank < extra_sims ? 1 : 0)` with
`base_sims = n / mpi_size`, `extra_sims = n % mpi_size` (`main.cpp` 135-137). -/
def simsForRank (n w r : ℕ) : ℕ :=
  n / w + (if r < n % w then 1 else 0)

/-- Expression `start_index = (mpi_rank * base_sims) + std::min(mpi_rank, extra_sims)`
(`main.cpp` line 138). -/
def startIndex (n w r : ℕ) : ℕ :=
  r * (n / w) + min r (n % w)

/-! ## Order book (`order_book.cpp`)

The two `std::map` sides are modelled as association lists in the order the
maps iterate: buy side descending by price (`std::greater<double>`), sell
side ascending. `begin()` is the head of the list. -/

/-- One side of the book: price levels in map-iteration order, each level a
price paired with its order queue (insertion-ordered, as `std::vector`). -/
abbrev Side := List (ℚ × List Order)

/-- State of `OrderBook` (`order_book.hpp`). -/
structure OrderBook where
  buy_orders : Side
  sell_orders : Side
  executed_trades : List ExecutedTrade
  next_order_id : ℤ
  next_trade_id : ℤ
deriving DecidableEq, Repr

/-- Constructor `OrderBook::OrderBook()` from `order_book.cpp` lines 5-7. -/
def emptyBook : OrderBook :=
  { buy_orders := [], sell_orders := [], executed_trades := [],
    next_order_id := 1, next_trade_id := 1 }

/-- Insertion into the buy side: `buy_orders[order.price].push_back(order)`
on a `std::map` ordered by `std::greater<double>` (descending keys). -/
def insertLevelDesc (o : Order) : Side → Side
  | [] => [(o.price, [o])]
  | (q, l) :: rest =>
    if q < o.price then (o.price, [o]) :: (q, l) :: rest
    else if o.price = q then (q, l ++ [o]) :: rest
    else (q, l) :: insertLevelDesc o rest

/-- Insertion into the sell side: ascending keys. -/
def insertLevelAsc (o : Order) : Side → Side
  | [] => [(o.price, [o])]
  | (q, l) :: rest =>
    if o.price < q then (o.price, [o]) :: (q, l) :: rest
    else if o.price = q then (q, l ++ [o]) :: rest
    else (q, l) :: insertLevelAsc o rest

/-- Method `OrderBook::addOrder(order)` from `order_book.cpp` lines 9-25: stamps the
next order id, inserts at the price level of the matching side, returns the
assigned id. -/
def OrderBook.addOrder (bk : OrderBook) (o : Order) : OrderBook × ℤ :=
  let o' := { o with order_id := bk.next_order_id }
  let bk' :=
    if o'.type = OrderType.BUY then
      { bk with next_order_id := bk.next_order_id + 1,
                buy_orders := insertLevelDesc o' bk.buy_orders }
    else
      { bk with next_order_id := bk.next_order_id + 1,
                sell_orders := insertLevelAsc o' bk.sell_orders }
  (bk', o'.order_id)

/-- Apply one fill of `mq` units to an order: `filled_quantity += mq`, then
recompute `status` exactly as `order_book.cpp` lines 98-117 do. -/
def fillOrder (o : Order) (mq : ℤ) : Order :=
  let o1 := { o with filled_quantity := o.filled_quantity + mq }
  { o1 with status := if o1.isFilled then OrderStatus.FILLED
                      else OrderStatus.PARTIALLY_FILLED }

/-- One executed match between a buy and a sell order (`order_book.cpp` lines
80-121): quantity `min(remaining_buy, remaining_sell)`, price the sell order
limit price, timestamp the buy order timestamp; both orders filled. -/
def matchStep (ntid : ℤ) (b s : Order) : ExecutedTrade × Order × Order :=
  let mq := min b.getRemainingQuantity s.getRemainingQuantity
  ({ trade_id := ntid, buy_order_id := b.order_id, sell_order_id := s.order_id,
     buyer_id := b.trader_id, seller_id := s.trader_id, price := s.price,
     quantity := mq, timestamp := b.timestamp },
   fillOrder b mq, fillOrder s mq)

/-- The inner `for (auto &sell_order : sell_list)` loop of
`OrderBook::matchOrders` (`order_book.cpp` lines 72-122) for one buy order:
skips filled sells, stops once the buy is filled, otherwise matches when
`min` of the remaining quantities is positive.  Returns
`(next_trade_id, buy order, sell list, trades)`. -/
def scanSells : List Order → ℤ → Order → ℤ × Order × List Order × List ExecutedTrade
  | [], ntid, b => (ntid, b, [], [])
  | s :: rest, ntid, b =>
    if s.isFilled then
      let r := scanSells rest ntid b
      (r.1, r.2.1, s :: r.2.2.1, r.2.2.2)
    else if b.isFilled then
      (ntid, b, s :: rest, [])
    else
      let mq := min b.getRemainingQuantity s.getRemainingQuantity
      if 0 < mq then
        let t := matchStep ntid b s
        let r := scanSells rest (ntid + 1) t.2.1
        (r.1, r.2.1, t.2.2 :: r.2.2.1, t.1 :: r.2.2.2)
      else
        let r := scanSells rest ntid b
        (r.1, r.2.1, s :: r.2.2.1, r.2.2.2)

/-- The outer `for (int i = 0; i < buy_list.size(); i++)` loop of
`OrderBook::matchOrders` (`order_book.cpp` lines 63-124): each non-filled buy
order scans the (current) sell list in order.  Returns
`(next_trade_id, buy list, sell list, trades)`. -/
def scanBuys : List Order → ℤ → List Order → ℤ × List Order × List Order × List ExecutedTrade
  | [], ntid, sl => (ntid, [], sl, [])
  | b :: bs, ntid, sl =>
    if b.isFilled then
      let r := scanBuys bs ntid sl
      (r.1, b :: r.2.1, r.2.2.1, r.2.2.2)
    else
      let r1 := scanSells sl ntid b
      let r2 := scanBuys bs r1.1 r1.2.2.1
      (r2.1, r1.2.1 :: r2.2.1, r2.2.2.1, r1.2.2.2 ++ r2.2.2.2)

/-- Purge `std::remove_if(..., isFilled)` on an order queue (`order_book.cpp`
lines 127-137 and 157-161). -/
def removeFilled (l : List Order) : List Order :=
  l.filter fun o => ! o.isFilled

/-- The `while (!buy_orders.empty() && !sell_orders.empty())` loop of
`OrderBook::matchOrders` (`order_book.cpp` lines 33-144), with explicit fuel.
Each iteration inspects the best (head) levels, stops when
`best_bid < best_ask`, drops empty levels, otherwise fully processes the two
levels, purges filled orders, and removes emptied levels.  One unit of fuel
is spent per iteration; `matchOrders` supplies enough fuel for the loop to
run to completion (each iteration removes at least one price level). -/
def matchLoop : ℕ → ℤ → Side → Side → ℤ × Side × Side × List ExecutedTrade
  | 0, ntid, buys, sells => (ntid, buys, sells, [])
  | fuel + 1, ntid, buys, sells =>
    match buys, sells with
    | [], _ => (ntid, buys, sells, [])
    | _ :: _, [] => (ntid, buys, sells, [])
    | (bp, bl) :: brest, (sp, sl) :: srest =>
      if bp < sp then (ntid, (bp, bl) :: brest, (sp, sl) :: srest, [])
      else if bl = [] ∨ sl = [] then
        matchLoop fuel ntid (if bl = [] then brest else (bp, bl) :: brest)
          (if sl = [] then srest else (sp, sl) :: srest)
      else
        let r := scanBuys bl ntid sl
        let bl2 := removeFilled r.2.1
        let sl2 := removeFilled r.2.2.1
        let buys' := if bl2 = [] then brest else (bp, bl2) :: brest
        let sells' := if sl2 = [] then srest else (sp, sl2) :: srest
        let rl := matchLoop fuel r.1 buys' sells'
        (rl.1, rl.2.1, rl.2.2.1, r.2.2.2 ++ rl.2.2.2)

/-- Method `OrderBook::matchOrders()` from `order_book.cpp` lines 27-147: runs the
matching loop (the fuel `#buy levels + #sell levels` is an upper bound on the
number of iterations), appends the new trades to the trade history, and
returns them. -/
def OrderBook.matchOrders (bk : OrderBook) : OrderBook × List ExecutedTrade :=
  let r := matchLoop (bk.buy_orders.length + bk.sell_orders.length)
    bk.next_trade_id bk.buy_orders bk.sell_orders
  ({ bk with buy_orders := r.2.1, sell_orders := r.2.2.1,
             next_trade_id := r.1,
             executed_trades := bk.executed_trades ++ r.2.2.2 },
   r.2.2.2)

/-- Method `OrderBook::cleanupFilledOrders` restricted to one side (`order_book.cpp` lines
149-192): purge filled orders from every level, drop emptied levels. -/
def cleanupSide (s : Side) : Side :=
  (s.map fun pl => (pl.1, removeFilled pl.2)).filter fun pl => ! pl.2.isEmpty

/-- Method `OrderBook::cleanupFilledOrders()` from `order_book.cpp` lines 149-192. -/
def OrderBook.cleanupFilledOrders (bk : OrderBook) : OrderBook :=
  { bk with buy_orders := cleanupSide bk.buy_orders,
            sell_orders := cleanupSide bk.sell_orders }

/-- Price at the head of a side, `0.0` when the side is empty (as
`getBestBid`/`getBestAsk`, `order_book.cpp` lines 214-226). -/
def sideBestPrice : Side → ℚ
  | [] => 0
  | (p, _) :: _ => p

/-- Method `OrderBook::getBestBid` from `order_book.cpp` lines 214-219. -/
def OrderBook.getBestBid (bk : OrderBook) : ℚ :=
  sideBestPrice bk.buy_orders

/-- Method `OrderBook::getBestAsk` from `order_book.cpp` lines 221-226. -/
def OrderBook.getBestAsk (bk : OrderBook) : ℚ :=
  sideBestPrice bk.sell_orders

/-- Membership of an order in a side of the book. -/
def inSide (S : Side) (o : Order) : Prop :=
  ∃ pl ∈ S, o ∈ pl.2

/-! ## Book operation sequences (for the whole-lifecycle invariant) -/

/-- The operations the simulation performs on the book: submitting a fresh
order (constructed with the six-argument `Order` constructor, as every call
site does: `simulation.cpp` lines 98-104, `main.cpp` line 382), matching, and
cleanup. -/
inductive BookOp where
  | submit (trader_id : ℤ) (type : OrderType) (price : ℚ) (qty : ℤ) (ts : ℚ)
  | matchO
  | cleanup
deriving DecidableEq, Repr

/-- Apply one operation to the book. -/
def applyOp (bk : OrderBook) : BookOp → OrderBook
  | BookOp.submit tid ty p q ts => (bk.addOrder (mkOrder 0 tid ty p q ts)).1
  | BookOp.matchO => bk.matchOrders.1
  | BookOp.cleanup => bk.cleanupFilledOrders

/-- A submission is valid when its quantity is positive (the engine only
submits orders with `quantity > 0`: `simulation.cpp` line 96, `main.cpp`
lines 373-377). -/
def opValid : BookOp → Prop
  | BookOp.submit _ _ _ q _ => 0 < q
  | BookOp.matchO => True
  | BookOp.cleanup => True

instance : DecidablePred opValid := fun op =>
  match op with
  | BookOp.submit _ _ _ q _ => inferInstanceAs (Decidable (0 < q))
  | BookOp.matchO => inferInstanceAs (Decidable True)
  | BookOp.cleanup => inferInstanceAs (Decidable True)

/-- Run a sequence of operations from the fresh book. -/
def runOps (ops : List BookOp) : OrderBook :=
  ops.foldl applyOp emptyBook

/-- The per-order fill invariant of the spec:
`0 ≤ filled_quantity ≤ quantity` and `status = FILLED ⟺ filled = quantity`. -/
def orderInv (o : Order) : Prop :=
  0 ≤ o.filled_quantity ∧ o.filled_quantity ≤ o.quantity ∧
    (o.status = OrderStatus.FILLED ↔ o.filled_quantity = o.quantity)

instance (o : Order) : Decidable (orderInv o) :=
  inferInstanceAs (Decidable (_ ∧ _ ∧ _))

/-- All orders on a side satisfy the fill invariant. -/
def sideInv (S : Side) : Prop :=
  ∀ pl ∈ S, ∀ o ∈ pl.2, orderInv o

/-- Both sides of a book satisfy the fill invariant. -/
def bookInv (bk : OrderBook) : Prop :=
  sideInv bk.buy_orders ∧ sideInv bk.sell_orders

/-! ## RNG seeding (`trader.cpp` lines 5-10, `market.cpp` lines 5-11) -/

/-- The seed actually fed to the trader `std::mt19937` engine by
`Trader::Trader` in `trader.cpp` line 8: `rng(std::random_device()())` —
the fresh entropy value from `std::random_device`, not the per-trader seed
`base_seed + i` the engine computes (`simulation.cpp` line 43). -/
def traderEngineSeed (configured_seed device_entropy : ℕ) : ℕ :=
  device_entropy

/-- The seed fed to the market `std::mt19937` engine by `Market::Market`
in `market.cpp` line 7: also the fresh `std::random_device` value; `Market`
takes no seed parameter at all (`market.hpp`). -/
def marketEngineSeed (device_entropy : ℕ) : ℕ :=
  device_entropy


/-! ### Projection and branch equations for the matching engine -/

theorem fillOrder_order_id (o : Order) (mq : ℤ) :
    (fillOrder o mq).order_id = o.order_id := rfl

theorem fillOrder_trader_id (o : Order) (mq : ℤ) :
    (fillOrder o mq).trader_id = o.trader_id := rfl

theorem fillOrder_price (o : Order) (mq : ℤ) :
    (fillOrder o mq).price = o.price := rfl

theorem fillOrder_quantity (o : Order) (mq : ℤ) :
    (fillOrder o mq).quantity = o.quantity := rfl

theorem fillOrder_filled (o : Order) (mq : ℤ) :
    (fillOrder o mq).filled_quantity = o.filled_quantity + mq := rfl

theorem matchStep_buy (ntid : ℤ) (b s : Order) :
    (matchStep ntid b s).2.1 =
      fillOrder b (min b.getRemainingQuantity s.getRemainingQuantity) := rfl

theorem matchStep_sell (ntid : ℤ) (b s : Order) :
    (matchStep ntid b s).2.2 =
      fillOrder s (min b.getRemainingQuantity s.getRemainingQuantity) := rfl

theorem matchStep_trade_quantity (ntid : ℤ) (b s : Order) :
    (matchStep ntid b s).1.quantity =
      min b.getRemainingQuantity s.getRemainingQuantity := rfl

theorem matchStep_trade_price (ntid : ℤ) (b s : Order) :
    (matchStep ntid b s).1.price = s.price := rfl

theorem matchStep_trade_buy_id (ntid : ℤ) (b s : Order) :
    (matchStep ntid b s).1.buy_order_id = b.order_id := rfl

theorem matchStep_trade_sell_id (ntid : ℤ) (b s : Order) :
    (matchStep ntid b s).1.sell_order_id = s.order_id := rfl

theorem scanSells_nil (ntid : ℤ) (b : Order) :
    scanSells [] ntid b = (ntid, b, [], []) := rfl

theorem scanSells_cons_filled {s : Order} (rest : List Order) {ntid : ℤ} {b : Order}
    (hs : s.isFilled = true) :
    scanSells (s :: rest) ntid b =
      ((scanSells rest ntid b).1, (scanSells rest ntid b).2.1,
       s :: (scanSells rest ntid b).2.2.1, (scanSells rest ntid b).2.2.2) := by
  simp only [scanSells]
  rw [if_pos hs]

theorem scanSells_cons_break {s : Order} (rest : List Order) {ntid : ℤ} {b : Order}
    (hs : ¬ s.isFilled = true) (hb : b.isFilled = true) :
    scanSells (s :: rest) ntid b = (ntid, b, s :: rest, []) := by
  simp only [scanSells]
  rw [if_neg hs, if_pos hb]

theorem scanSells_cons_match {s : Order} (rest : List Order) {ntid : ℤ} {b : Order}
    (hs : ¬ s.isFilled = true) (hb : ¬ b.isFilled = true)
    (hm : 0 < min b.getRemainingQuantity s.getRemainingQuantity) :
    scanSells (s :: rest) ntid b =
      ((scanSells rest (ntid + 1) (matchStep ntid b s).2.1).1,
       (scanSells rest (ntid + 1) (matchStep ntid b s).2.1).2.1,
       (matchStep ntid b s).2.2 ::
         (scanSells rest (ntid + 1) (matchStep ntid b s).2.1).2.2.1,
       (matchStep ntid b s).1 ::
         (scanSells rest (ntid + 1) (matchStep ntid b s).2.1).2.2.2) := by
  simp only [scanSells]
  rw [if_neg hs, if_neg hb, if_pos hm]

/-- When both orders are unfilled the matched quantity is positive: the
`match_quantity > 0` test in `order_book.cpp` line 84 cannot fail there. -/
theorem min_rem_pos {b s : Order} (hb : ¬ b.isFilled = true) (hs : ¬ s.isFilled = true) :
    0 < min b.getRemainingQuantity s.getRemainingQuantity := by
  unfold Order.isFilled at hb hs
  rw [decide_eq_true_iff] at hb hs
  unfold Order.getRemainingQuantity
  omega

theorem scanBuys_nil (ntid : ℤ) (sl : List Order) :
    scanBuys [] ntid sl = (ntid, [], sl, []) := rfl

theorem scanBuys_cons_filled {b : Order} (bs : List Order) {ntid : ℤ} (sl : List Order)
    (hb : b.isFilled = true) :
    scanBuys (b :: bs) ntid sl =
      ((scanBuys bs ntid sl).1, b :: (scanBuys bs ntid sl).2.1,
       (scanBuys bs ntid sl).2.2.1, (scanBuys bs ntid sl).2.2.2) := by
  simp only [scanBuys]
  rw [if_pos hb]

theorem scanBuys_cons_active {b : Order} (bs : List Order) {ntid : ℤ} (sl : List Order)
    (hb : ¬ b.isFilled = true) :
    scanBuys (b :: bs) ntid sl =
      ((scanBuys bs (scanSells sl ntid b).1 (scanSells sl ntid b).2.2.1).1,
       (scanSells sl ntid b).2.1 ::
         (scanBuys bs (scanSells sl ntid b).1 (scanSells sl ntid b).2.2.1).2.1,
       (scanBuys bs (scanSells sl ntid b).1 (scanSells sl ntid b).2.2.1).2.2.1,
       (scanSells sl ntid b).2.2.2 ++
         (scanBuys bs (scanSells sl ntid b).1 (scanSells sl ntid b).2.2.1).2.2.2) := by
  simp only [scanBuys]
  rw [if_neg hb]

/-! ### Order evolution through the matching pass -/

/-- Identity fields of an order are preserved while `filled_quantity` only
grows. -/
def evolves (o o' : Order) : Prop :=
  o'.order_id = o.order_id ∧ o'.trader_id = o.trader_id ∧ o'.price = o.price ∧
    o'.quantity = o.quantity ∧ o.filled_quantity ≤ o'.filled_quantity

theorem evolves_refl (o : Order) : evolves o o :=
  ⟨rfl, rfl, rfl, rfl, le_rfl⟩

theorem evolves_trans {a b c : Order} (h1 : evolves a b) (h2 : evolves b c) :
    evolves a c := by
  obtain ⟨e1, e2, e3, e4, e5⟩ := h1
  obtain ⟨f1, f2, f3, f4, f5⟩ := h2
  exact ⟨f1.trans e1, f2.trans e2, f3.trans e3, f4.trans e4, e5.trans f5⟩

theorem evolves_rem {o o' : Order} (h : evolves o o') :
    o'.getRemainingQuantity ≤ o.getRemainingQuantity := by
  obtain ⟨-, -, -, h4, h5⟩ := h
  unfold Order.getRemainingQuantity
  omega

theorem fillOrder_evolves (o : Order) (mq : ℤ) (h : 0 ≤ mq) :
    evolves o (fillOrder o mq) :=
  ⟨rfl, rfl, rfl, rfl, by rw [fillOrder_filled]; omega⟩

theorem forall₂_evolves_refl (l : List Order) : List.Forall₂ evolves l l := by
  induction l with
  | nil => exact List.Forall₂.nil
  | cons x xs ih => exact List.Forall₂.cons (evolves_refl x) ih

theorem forall₂_mem_right {r : Order → Order → Prop} :
    ∀ {l1 l2 : List Order}, List.Forall₂ r l1 l2 → ∀ y ∈ l2, ∃ x ∈ l1, r x y := by
  intro l1 l2 h
  induction h with
  | nil => intro y hy; cases hy
  | cons hxy _ ih =>
    intro y hy
    rcases List.mem_cons.mp hy with h | h
    · subst h; exact ⟨_, List.mem_cons_self _ _, hxy⟩
    · obtain ⟨x, hx, hr⟩ := ih y h
      exact ⟨x, List.mem_cons_of_mem _ hx, hr⟩

theorem forall₂_evolves_trans :
    ∀ {l1 l2 l3 : List Order}, List.Forall₂ evolves l1 l2 →
      List.Forall₂ evolves l2 l3 → List.Forall₂ evolves l1 l3 := by
  intro l1 l2 l3 h
  induction h generalizing l3 with
  | nil => intro h2; cases h2; exact List.Forall₂.nil
  | cons hxy _ ih =>
    intro h2
    cases h2 with
    | cons hyz htl => exact List.Forall₂.cons (evolves_trans hxy hyz) (ih htl)

theorem isFilled_iff (o : Order) :
    o.isFilled = true ↔ o.quantity ≤ o.filled_quantity := by
  unfold Order.isFilled
  exact decide_eq_true_iff

theorem isFilled_false_iff (o : Order) :
    o.isFilled = false ↔ ¬ o.quantity ≤ o.filled_quantity := by
  unfold Order.isFilled
  exact decide_eq_false_iff_not

theorem evolves_unfilled {o o' : Order} (h : evolves o o')
    (h' : o'.isFilled = false) : o.isFilled = false := by
  obtain ⟨-, -, -, h4, h5⟩ := h
  rw [isFilled_false_iff] at h' ⊢
  omega

theorem scanSells_buy (sl : List Order) :
    ∀ ntid b, evolves b (scanSells sl ntid b).2.1 := by
  induction sl with
  | nil => intro ntid b; exact evolves_refl b
  | cons s rest ih =>
    intro ntid b
    by_cases hs : s.isFilled = true
    · rw [scanSells_cons_filled rest hs]
      exact ih ntid b
    · by_cases hb : b.isFilled = true
      · rw [scanSells_cons_break rest hs hb]
        exact evolves_refl b
      · rw [scanSells_cons_match rest hs hb (min_rem_pos hb hs), matchStep_buy]
        exact evolves_trans
          (fillOrder_evolves b _ (le_of_lt (min_rem_pos hb hs))) (ih _ _)

theorem scanSells_sells (sl : List Order) :
    ∀ ntid b, List.Forall₂ evolves sl (scanSells sl ntid b).2.2.1 := by
  induction sl with
  | nil => intro ntid b; exact List.Forall₂.nil
  | cons s rest ih =>
    intro ntid b
    by_cases hs : s.isFilled = true
    · rw [scanSells_cons_filled rest hs]
      exact List.Forall₂.cons (evolves_refl s) (ih ntid b)
    · by_cases hb : b.isFilled = true
      · rw [scanSells_cons_break rest hs hb]
        exact forall₂_evolves_refl (s :: rest)
      · rw [scanSells_cons_match rest hs hb (min_rem_pos hb hs), matchStep_sell]
        exact List.Forall₂.cons
          (fillOrder_evolves s _ (le_of_lt (min_rem_pos hb hs))) (ih _ _)

theorem scanSells_break (sl : List Order) : ∀ ntid b,
    (scanSells sl ntid b).2.1.isFilled = false →
    ∀ s' ∈ (scanSells sl ntid b).2.2.1, s'.isFilled = true := by
  induction sl with
  | nil => intro ntid b _ s' hs'; cases hs'
  | cons s rest ih =>
    intro ntid b hbf s' hs'
    by_cases hs : s.isFilled = true
    · rw [scanSells_cons_filled rest hs] at hbf hs'
      rcases List.mem_cons.mp hs' with h | h
      · subst h; exact hs
      · exact ih ntid b hbf s' h
    · by_cases hb : b.isFilled = true
      · rw [scanSells_cons_break rest hs hb] at hbf
        rw [hb] at hbf
        cases hbf
      · rw [scanSells_cons_match rest hs hb (min_rem_pos hb hs)] at hbf hs'
        have hb1 : (matchStep ntid b s).2.1.isFilled = false :=
          evolves_unfilled (scanSells_buy rest _ _) hbf
        rcases List.mem_cons.mp hs' with h | h
        · subst h
          rw [matchStep_sell, isFilled_iff, fillOrder_quantity, fillOrder_filled]
          rw [matchStep_buy, isFilled_false_iff, fillOrder_quantity, fillOrder_filled] at hb1
          have hs2 := (not_congr (isFilled_iff s)).mp hs
          unfold Order.getRemainingQuantity at hb1 ⊢
          omega
        · exact ih _ _ hbf s' h

theorem scanSells_allFilled (sl : List Order) : ∀ ntid b,
    (∀ s ∈ sl, s.isFilled = true) → scanSells sl ntid b = (ntid, b, sl, []) := by
  induction sl with
  | nil => intro ntid b _; rfl
  | cons s rest ih =>
    intro ntid b hall
    rw [scanSells_cons_filled rest (hall s (List.mem_cons_self s rest))]
    rw [ih ntid b (fun s' h => hall s' (List.mem_cons_of_mem s h))]

theorem scanSells_trades (sl : List Order) : ∀ ntid b,
    ∀ t ∈ (scanSells sl ntid b).2.2.2,
      0 < t.quantity ∧ t.buy_order_id = b.order_id ∧
      t.quantity ≤ b.getRemainingQuantity ∧
      ∃ s ∈ sl, t.sell_order_id = s.order_id ∧ t.price = s.price ∧
        t.quantity ≤ s.getRemainingQuantity := by
  induction sl with
  | nil => intro ntid b t ht; cases ht
  | cons s rest ih =>
    intro ntid b t ht
    by_cases hs : s.isFilled = true
    · rw [scanSells_cons_filled rest hs] at ht
      obtain ⟨h1, h2, h3, s', hs', h4⟩ := ih ntid b t ht
      exact ⟨h1, h2, h3, s', List.mem_cons_of_mem s hs', h4⟩
    · by_cases hb : b.isFilled = true
      · rw [scanSells_cons_break rest hs hb] at ht
        cases ht
      · rw [scanSells_cons_match rest hs hb (min_rem_pos hb hs)] at ht
        rcases List.mem_cons.mp ht with h | h
        · subst h
          rw [matchStep_trade_quantity, matchStep_trade_buy_id, matchStep_trade_sell_id,
            matchStep_trade_price]
          exact ⟨min_rem_pos hb hs, rfl, min_le_left _ _, s, List.mem_cons_self s rest,
            rfl, rfl, min_le_right _ _⟩
        · obtain ⟨h1, h2, h3, s', hs', h4⟩ := ih _ _ t h
          rw [matchStep_buy] at h2 h3
          rw [fillOrder_order_id] at h2
          refine ⟨h1, h2, ?_, s', List.mem_cons_of_mem s hs', h4⟩
          have hmq := min_rem_pos hb hs
          unfold Order.getRemainingQuantity at h3 hmq ⊢
          rw [fillOrder_quantity, fillOrder_filled] at h3
          omega

theorem fillOrder_filled_iff (o : Order) (mq : ℤ) :
    (fillOrder o mq).isFilled = true ↔ o.quantity ≤ o.filled_quantity + mq := by
  rw [isFilled_iff, fillOrder_quantity, fillOrder_filled]

theorem fillOrder_inv (o : Order) (mq : ℤ) (hinv : orderInv o) (h0 : 0 ≤ mq)
    (hle : mq ≤ o.getRemainingQuantity) : orderInv (fillOrder o mq) := by
  obtain ⟨h1, h2, h3⟩ := hinv
  unfold Order.getRemainingQuantity at hle
  unfold orderInv
  rw [fillOrder_quantity, fillOrder_filled]
  refine ⟨by omega, by omega, ?_⟩
  show (if (fillOrder o mq).isFilled = true then OrderStatus.FILLED
        else OrderStatus.PARTIALLY_FILLED) = OrderStatus.FILLED ↔ _
  split_ifs with h
  · have h4 := (fillOrder_filled_iff o mq).mp h
    exact ⟨fun _ => by omega, fun _ => rfl⟩
  · constructor
    · intro hcon; exact hcon.elim
    · intro heq
      exact absurd ((fillOrder_filled_iff o mq).mpr (by omega)) h

theorem scanSells_inv (sl : List Order) : ∀ ntid b, orderInv b → (∀ s ∈ sl, orderInv s) →
    orderInv (scanSells sl ntid b).2.1 ∧
    ∀ s' ∈ (scanSells sl ntid b).2.2.1, orderInv s' := by
  induction sl with
  | nil => intro ntid b hb _; exact ⟨hb, fun s' h => absurd h (List.not_mem_nil s')⟩
  | cons s rest ih =>
    intro ntid b hbinv hslinv
    have hsinv : orderInv s := hslinv s (List.mem_cons_self s rest)
    have hrest : ∀ s' ∈ rest, orderInv s' :=
      fun s' h => hslinv s' (List.mem_cons_of_mem s h)
    by_cases hs : s.isFilled = true
    · rw [scanSells_cons_filled rest hs]
      obtain ⟨ha, hrec⟩ := ih ntid b hbinv hrest
      refine ⟨ha, fun s' h => ?_⟩
      rcases List.mem_cons.mp h with h | h
      · subst h; exact hsinv
      · exact hrec s' h
    · by_cases hb : b.isFilled = true
      · rw [scanSells_cons_break rest hs hb]
        exact ⟨hbinv, hslinv⟩
      · rw [scanSells_cons_match rest hs hb (min_rem_pos hb hs), matchStep_buy,
          matchStep_sell]
        obtain ⟨ha, hrec⟩ := ih _ _
          (fillOrder_inv b _ hbinv (le_of_lt (min_rem_pos hb hs)) (min_le_left _ _)) hrest
        refine ⟨ha, fun s' h => ?_⟩
        rcases List.mem_cons.mp h with h | h
        · subst h
          exact fillOrder_inv s _ hsinv (le_of_lt (min_rem_pos hb hs)) (min_le_right _ _)
        · exact hrec s' h

/-! ### The outer per-level pass -/

theorem scanBuys_buys (bl : List Order) : ∀ ntid sl,
    List.Forall₂ evolves bl (scanBuys bl ntid sl).2.1 := by
  induction bl with
  | nil => intro ntid sl; exact List.Forall₂.nil
  | cons b bs ih =>
    intro ntid sl
    by_cases hb : b.isFilled = true
    · rw [scanBuys_cons_filled bs sl hb]
      exact List.Forall₂.cons (evolves_refl b) (ih ntid sl)
    · rw [scanBuys_cons_active bs sl hb]
      exact List.Forall₂.cons (scanSells_buy sl ntid b) (ih _ _)

theorem scanBuys_sells (bl : List Order) : ∀ ntid sl,
    List.Forall₂ evolves sl (scanBuys bl ntid sl).2.2.1 := by
  induction bl with
  | nil => intro ntid sl; exact forall₂_evolves_refl sl
  | cons b bs ih =>
    intro ntid sl
    by_cases hb : b.isFilled = true
    · rw [scanBuys_cons_filled bs sl hb]
      exact ih ntid sl
    · rw [scanBuys_cons_active bs sl hb]
      exact forall₂_evolves_trans (scanSells_sells sl ntid b) (ih _ _)

theorem scanBuys_allFilled (bl : List Order) : ∀ ntid sl,
    (∀ s ∈ sl, s.isFilled = true) → scanBuys bl ntid sl = (ntid, bl, sl, []) := by
  induction bl with
  | nil => intro ntid sl _; rfl
  | cons b bs ih =>
    intro ntid sl hall
    by_cases hb : b.isFilled = true
    · rw [scanBuys_cons_filled bs sl hb, ih ntid sl hall]
    · rw [scanBuys_cons_active bs sl hb, scanSells_allFilled sl ntid b hall]
      rw [ih ntid sl hall]
      rfl

theorem scanBuys_level (bl : List Order) : ∀ ntid sl,
    (∀ b' ∈ (scanBuys bl ntid sl).2.1, b'.isFilled = true) ∨
    (∀ s' ∈ (scanBuys bl ntid sl).2.2.1, s'.isFilled = true) := by
  induction bl with
  | nil => intro ntid sl; exact Or.inl (fun b' h => absurd h (List.not_mem_nil b'))
  | cons b bs ih =>
    intro ntid sl
    by_cases hb : b.isFilled = true
    · rw [scanBuys_cons_filled bs sl hb]
      rcases ih ntid sl with hl | hr
      · refine Or.inl (fun b' h => ?_)
        rcases List.mem_cons.mp h with h | h
        · subst h; exact hb
        · exact hl b' h
      · exact Or.inr hr
    · rw [scanBuys_cons_active bs sl hb]
      by_cases hf : (scanSells sl ntid b).2.1.isFilled = true
      · rcases ih (scanSells sl ntid b).1 (scanSells sl ntid b).2.2.1 with hl | hr
        · refine Or.inl (fun b' h => ?_)
          rcases List.mem_cons.mp h with h | h
          · subst h; exact hf
          · exact hl b' h
        · exact Or.inr hr
      · have hallsl : ∀ s' ∈ (scanSells sl ntid b).2.2.1, s'.isFilled = true :=
          scanSells_break sl ntid b (Bool.not_eq_true _ ▸ hf)
        rw [scanBuys_allFilled bs _ _ hallsl]
        exact Or.inr hallsl

theorem scanBuys_trades (bl : List Order) : ∀ ntid sl,
    ∀ t ∈ (scanBuys bl ntid sl).2.2.2,
      0 < t.quantity ∧
      (∃ b ∈ bl, t.buy_order_id = b.order_id ∧ t.quantity ≤ b.getRemainingQuantity) ∧
      ∃ s ∈ sl, t.sell_order_id = s.order_id ∧ t.price = s.price ∧
        t.quantity ≤ s.getRemainingQuantity := by
  induction bl with
  | nil => intro ntid sl t ht; cases ht
  | cons b bs ih =>
    intro ntid sl t ht
    by_cases hb : b.isFilled = true
    · rw [scanBuys_cons_filled bs sl hb] at ht
      obtain ⟨h1, ⟨b', hb', h2⟩, hsell⟩ := ih ntid sl t ht
      exact ⟨h1, ⟨b', List.mem_cons_of_mem b hb', h2⟩, hsell⟩
    · rw [scanBuys_cons_active bs sl hb] at ht
      rcases List.mem_append.mp ht with h | h
      · obtain ⟨h1, h2, h3, s', hs', h4⟩ := scanSells_trades sl ntid b t h
        exact ⟨h1, ⟨b, List.mem_cons_self b bs, h2, h3⟩, s', hs', h4⟩
      · obtain ⟨h1, ⟨b', hb', h2⟩, s1, hs1, h3, h4, h5⟩ := ih _ _ t h
        obtain ⟨s, hs, hev⟩ := forall₂_mem_right (scanSells_sells sl ntid b) s1 hs1
        refine ⟨h1, ⟨b', List.mem_cons_of_mem b hb', h2⟩, s, hs, ?_, ?_, ?_⟩
        · rw [h3, hev.1]
        · rw [h4, hev.2.2.1]
        · exact le_trans h5 (evolves_rem hev)

theorem scanBuys_inv (bl : List Order) : ∀ ntid sl,
    (∀ b' ∈ bl, orderInv b') → (∀ s ∈ sl, orderInv s) →
    (∀ b' ∈ (scanBuys bl ntid sl).2.1, orderInv b') ∧
    (∀ s' ∈ (scanBuys bl ntid sl).2.2.1, orderInv s') := by
  induction bl with
  | nil =>
    intro ntid sl _ hsl
    exact ⟨fun b' h => absurd h (List.not_mem_nil b'), hsl⟩
  | cons b bs ih =>
    intro ntid sl hbl hsl
    have hbinv : orderInv b := hbl b (List.mem_cons_self b bs)
    have hrest : ∀ b' ∈ bs, orderInv b' :=
      fun b' h => hbl b' (List.mem_cons_of_mem b h)
    by_cases hb : b.isFilled = true
    · rw [scanBuys_cons_filled bs sl hb]
      obtain ⟨ha, hc⟩ := ih ntid sl hrest hsl
      refine ⟨fun b' h => ?_, hc⟩
      rcases List.mem_cons.mp h with h | h
      · subst h; exact hbinv
      · exact ha b' h
    · rw [scanBuys_cons_active bs sl hb]
      obtain ⟨hbi, hsi⟩ := scanSells_inv sl ntid b hbinv hsl
      obtain ⟨ha, hc⟩ := ih _ _ hrest hsi
      refine ⟨fun b' h => ?_, hc⟩
      rcases List.mem_cons.mp h with h | h
      · subst h; exact hbi
      · exact ha b' h

/-! ### The matching loop -/

theorem matchLoop_zero (ntid : ℤ) (buys sells : Side) :
    matchLoop 0 ntid buys sells = (ntid, buys, sells, []) := rfl

theorem matchLoop_nilB (fuel : ℕ) (ntid : ℤ) (sells : Side) :
    matchLoop (fuel + 1) ntid [] sells = (ntid, [], sells, []) := by
  simp only [matchLoop]

theorem matchLoop_nilS (fuel : ℕ) (ntid : ℤ) (hd : ℚ × List Order) (brest : Side) :
    matchLoop (fuel + 1) ntid (hd :: brest) [] = (ntid, hd :: brest, [], []) := by
  simp only [matchLoop]

theorem matchLoop_stop {fuel : ℕ} {ntid : ℤ} {bp sp : ℚ} {bl sl : List Order}
    {brest srest : Side} (h : bp < sp) :
    matchLoop (fuel + 1) ntid ((bp, bl) :: brest) ((sp, sl) :: srest) =
      (ntid, (bp, bl) :: brest, (sp, sl) :: srest, []) := by
  simp only [matchLoop]
  rw [if_pos h]

theorem matchLoop_dropEmpty {fuel : ℕ} {ntid : ℤ} {bp sp : ℚ} {bl sl : List Order}
    {brest srest : Side} (h : ¬ bp < sp) (he : bl = [] ∨ sl = []) :
    matchLoop (fuel + 1) ntid ((bp, bl) :: brest) ((sp, sl) :: srest) =
      matchLoop fuel ntid (if bl = [] then brest else (bp, bl) :: brest)
        (if sl = [] then srest else (sp, sl) :: srest) := by
  simp only [matchLoop]
  rw [if_neg h, if_pos he]

theorem matchLoop_process {fuel : ℕ} {ntid : ℤ} {bp sp : ℚ} {bl sl : List Order}
    {brest srest : Side} (h : ¬ bp < sp) (he : ¬ (bl = [] ∨ sl = [])) :
    matchLoop (fuel + 1) ntid ((bp, bl) :: brest) ((sp, sl) :: srest) =
      ((matchLoop fuel (scanBuys bl ntid sl).1
          (if removeFilled (scanBuys bl ntid sl).2.1 = [] then brest
           else (bp, removeFilled (scanBuys bl ntid sl).2.1) :: brest)
          (if removeFilled (scanBuys bl ntid sl).2.2.1 = [] then srest
           else (sp, removeFilled (scanBuys bl ntid sl).2.2.1) :: srest)).1,
       (matchLoop fuel (scanBuys bl ntid sl).1
          (if removeFilled (scanBuys bl ntid sl).2.1 = [] then brest
           else (bp, removeFilled (scanBuys bl ntid sl).2.1) :: brest)
          (if removeFilled (scanBuys bl ntid sl).2.2.1 = [] then srest
           else (sp, removeFilled (scanBuys bl ntid sl).2.2.1) :: srest)).2.1,
       (matchLoop fuel (scanBuys bl ntid sl).1
          (if removeFilled (scanBuys bl ntid sl).2.1 = [] then brest
           else (bp, removeFilled (scanBuys bl ntid sl).2.1) :: brest)
          (if removeFilled (scanBuys bl ntid sl).2.2.1 = [] then srest
           else (sp, removeFilled (scanBuys bl ntid sl).2.2.1) :: srest)).2.2.1,
       (scanBuys bl ntid sl).2.2.2 ++
         (matchLoop fuel (scanBuys bl ntid sl).1
            (if removeFilled (scanBuys bl ntid sl).2.1 = [] then brest
             else (bp, removeFilled (scanBuys bl ntid sl).2.1) :: brest)
            (if removeFilled (scanBuys bl ntid sl).2.2.1 = [] then srest
             else (sp, removeFilled (scanBuys bl ntid sl).2.2.1) :: srest)).2.2.2) := by
  simp only [matchLoop]
  rw [if_neg h, if_neg he]

theorem removeFilled_nil_of_allFilled {l : List Order}
    (h : ∀ o ∈ l, o.isFilled = true) : removeFilled l = [] := by
  unfold removeFilled
  rw [List.filter_eq_nil_iff]
  intro a ha
  rw [h a ha]
  exact fun hcon => Bool.noConfusion hcon

theorem mem_removeFilled {l : List Order} {o : Order} (h : o ∈ removeFilled l) :
    o ∈ l :=
  (List.mem_filter.mp h).1

/-- Whenever the two head levels both hold orders and the book is crossed,
one of the two levels is fully consumed by the level pass. -/
theorem processed_level_consumed (bl : List Order) (ntid : ℤ) (sl : List Order) :
    removeFilled (scanBuys bl ntid sl).2.1 = [] ∨
    removeFilled (scanBuys bl ntid sl).2.2.1 = [] := by
  rcases scanBuys_level bl ntid sl with hl | hr
  · exact Or.inl (removeFilled_nil_of_allFilled hl)
  · exact Or.inr (removeFilled_nil_of_allFilled hr)

theorem matchLoop_uncrossed : ∀ fuel : ℕ, ∀ (ntid : ℤ) (buys sells : Side),
    buys.length + sells.length ≤ fuel →
    (matchLoop fuel ntid buys sells).2.1 = [] ∨
    (matchLoop fuel ntid buys sells).2.2.1 = [] ∨
    sideBestPrice (matchLoop fuel ntid buys sells).2.1 <
      sideBestPrice (matchLoop fuel ntid buys sells).2.2.1 := by
  intro fuel
  induction fuel with
  | zero =>
    intro ntid buys sells h
    left
    have hb : buys = [] := List.length_eq_zero.mp (by omega)
    rw [matchLoop_zero, hb]
  | succ fuel ih =>
    intro ntid buys sells h
    match buys, sells with
    | [], sells =>
      left
      rw [matchLoop_nilB]
    | hd :: brest, [] =>
      right; left
      rw [matchLoop_nilS]
    | (bp, bl) :: brest, (sp, sl) :: srest =>
      by_cases hlt : bp < sp
      · rw [matchLoop_stop hlt]
        right; right
        exact hlt
      · simp only [List.length_cons] at h
        by_cases hemp : bl = [] ∨ sl = []
        · rw [matchLoop_dropEmpty hlt hemp]
          by_cases hbl : bl = []
          · by_cases hsl : sl = []
            · rw [if_pos hbl, if_pos hsl]
              exact ih ntid brest srest (by omega)
            · rw [if_pos hbl, if_neg hsl]
              exact ih ntid brest ((sp, sl) :: srest)
                (by simp only [List.length_cons]; omega)
          · have hsl : sl = [] := hemp.resolve_left hbl
            rw [if_neg hbl, if_pos hsl]
            exact ih ntid ((bp, bl) :: brest) srest
              (by simp only [List.length_cons]; omega)
        · rw [matchLoop_process hlt hemp]
          by_cases hb2 : removeFilled (scanBuys bl ntid sl).2.1 = []
          · rw [if_pos hb2]
            by_cases hs2 : removeFilled (scanBuys bl ntid sl).2.2.1 = []
            · rw [if_pos hs2]
              exact ih _ brest srest (by omega)
            · rw [if_neg hs2]
              exact ih _ brest ((sp, removeFilled (scanBuys bl ntid sl).2.2.1) :: srest)
                (by simp only [List.length_cons]; omega)
          · have hs2 : removeFilled (scanBuys bl ntid sl).2.2.1 = [] :=
              (processed_level_consumed bl ntid sl).resolve_left hb2
            rw [if_neg hb2, if_pos hs2]
            exact ih _ ((bp, removeFilled (scanBuys bl ntid sl).2.1) :: brest) srest
              (by simp only [List.length_cons]; omega)

/-! ### Trade provenance and invariants through the loop -/

theorem inSide_cons_tail {S : Side} {pl : ℚ × List Order} {o : Order}
    (h : inSide S o) : inSide (pl :: S) o := by
  obtain ⟨pl', hpl', ho⟩ := h
  exact ⟨pl', List.mem_cons_of_mem pl hpl', ho⟩

theorem inSide_head {S : Side} {p : ℚ} {l : List Order} {o : Order}
    (h : o ∈ l) : inSide ((p, l) :: S) o :=
  ⟨(p, l), List.mem_cons_self _ _, h⟩

theorem inSide_processed_buys {bp : ℚ} {bl : List Order} {brest : Side}
    {ntid : ℤ} {sl : List Order} {o : Order}
    (h : inSide (if removeFilled (scanBuys bl ntid sl).2.1 = [] then brest
                 else (bp, removeFilled (scanBuys bl ntid sl).2.1) :: brest) o) :
    ∃ b₀, inSide ((bp, bl) :: brest) b₀ ∧ evolves b₀ o := by
  split_ifs at h with hb2
  · exact ⟨o, inSide_cons_tail h, evolves_refl o⟩
  · obtain ⟨pl, hpl, ho⟩ := h
    rcases List.mem_cons.mp hpl with heq | hpl
    · subst heq
      obtain ⟨b₀, hb₀, hev⟩ :=
        forall₂_mem_right (scanBuys_buys bl ntid sl) o (mem_removeFilled ho)
      exact ⟨b₀, inSide_head hb₀, hev⟩
    · exact ⟨o, ⟨pl, List.mem_cons_of_mem _ hpl, ho⟩, evolves_refl o⟩

theorem inSide_processed_sells {sp : ℚ} {sl : List Order} {srest : Side}
    {ntid : ℤ} {bl : List Order} {o : Order}
    (h : inSide (if removeFilled (scanBuys bl ntid sl).2.2.1 = [] then srest
                 else (sp, removeFilled (scanBuys bl ntid sl).2.2.1) :: srest) o) :
    ∃ s₀, inSide ((sp, sl) :: srest) s₀ ∧ evolves s₀ o := by
  split_ifs at h with hs2
  · exact ⟨o, inSide_cons_tail h, evolves_refl o⟩
  · obtain ⟨pl, hpl, ho⟩ := h
    rcases List.mem_cons.mp hpl with heq | hpl
    · subst heq
      obtain ⟨s₀, hs₀, hev⟩ :=
        forall₂_mem_right (scanBuys_sells bl ntid sl) o (mem_removeFilled ho)
      exact ⟨s₀, inSide_head hs₀, hev⟩
    · exact ⟨o, ⟨pl, List.mem_cons_of_mem _ hpl, ho⟩, evolves_refl o⟩

theorem inSide_dropEmpty {S : Side} {pl : ℚ × List Order} {c : Prop} [Decidable c]
    {o : Order} (h : inSide (if c then S else pl :: S) o) : inSide (pl :: S) o := by
  split_ifs at h
  · exact inSide_cons_tail h
  · exact h

theorem matchLoop_trades : ∀ fuel : ℕ, ∀ (ntid : ℤ) (buys sells : Side),
    ∀ t ∈ (matchLoop fuel ntid buys sells).2.2.2,
      0 < t.quantity ∧
      (∃ b, inSide buys b ∧ t.buy_order_id = b.order_id ∧
        t.quantity ≤ b.getRemainingQuantity) ∧
      ∃ s, inSide sells s ∧ t.sell_order_id = s.order_id ∧ t.price = s.price ∧
        t.quantity ≤ s.getRemainingQuantity := by
  intro fuel
  induction fuel with
  | zero => intro ntid buys sells t ht; rw [matchLoop_zero] at ht; cases ht
  | succ fuel ih =>
    intro ntid buys sells t ht
    match buys, sells with
    | [], sells => rw [matchLoop_nilB] at ht; cases ht
    | hd :: brest, [] => rw [matchLoop_nilS] at ht; cases ht
    | (bp, bl) :: brest, (sp, sl) :: srest =>
      by_cases hlt : bp < sp
      · rw [matchLoop_stop hlt] at ht; cases ht
      · by_cases hemp : bl = [] ∨ sl = []
        · rw [matchLoop_dropEmpty hlt hemp] at ht
          obtain ⟨h1, ⟨b, hb, h2⟩, s, hs, h3⟩ := ih ntid _ _ t ht
          exact ⟨h1, ⟨b, inSide_dropEmpty hb, h2⟩, s, inSide_dropEmpty hs, h3⟩
        · rw [matchLoop_process hlt hemp] at ht
          rcases List.mem_append.mp ht with h | h
          · obtain ⟨h1, ⟨b, hb, h2, h3⟩, s, hs, h4⟩ := scanBuys_trades bl ntid sl t h
            exact ⟨h1, ⟨b, inSide_head hb, h2, h3⟩, s, inSide_head hs, h4⟩
          · obtain ⟨h1, ⟨b1, hb1, h2, h3⟩, s1, hs1, h4, h5, h6⟩ := ih _ _ _ t h
            obtain ⟨b₀, hb₀, hevb⟩ := inSide_processed_buys hb1
            obtain ⟨s₀, hs₀, hevs⟩ := inSide_processed_sells hs1
            refine ⟨h1, ⟨b₀, hb₀, ?_, ?_⟩, s₀, hs₀, ?_, ?_, ?_⟩
            · rw [h2, hevb.1]
            · exact le_trans h3 (evolves_rem hevb)
            · rw [h4, hevs.1]
            · rw [h5, hevs.2.2.1]
            · exact le_trans h6 (evolves_rem hevs)

theorem sideInv_cons {pl : ℚ × List Order} {S : Side} (hpl : ∀ o ∈ pl.2, orderInv o)
    (hS : sideInv S) : sideInv (pl :: S) := by
  intro pl' hpl'
  rcases List.mem_cons.mp hpl' with heq | h
  · subst heq; exact hpl
  · exact hS pl' h

theorem sideInv_tail {pl : ℚ × List Order} {S : Side} (h : sideInv (pl :: S)) :
    sideInv S :=
  fun pl' hpl' => h pl' (List.mem_cons_of_mem pl hpl')

theorem sideInv_head {pl : ℚ × List Order} {S : Side} (h : sideInv (pl :: S)) :
    ∀ o ∈ pl.2, orderInv o :=
  h pl (List.mem_cons_self pl S)

theorem sideInv_if {c : Prop} [Decidable c] {S : Side} {pl : ℚ × List Order}
    (hS : sideInv S) (hpl : ∀ o ∈ pl.2, orderInv o) :
    sideInv (if c then S else pl :: S) := by
  split_ifs
  · exact hS
  · exact sideInv_cons hpl hS

theorem matchLoop_inv : ∀ fuel : ℕ, ∀ (ntid : ℤ) (buys sells : Side),
    sideInv buys → sideInv sells →
    sideInv (matchLoop fuel ntid buys sells).2.1 ∧
    sideInv (matchLoop fuel ntid buys sells).2.2.1 := by
  intro fuel
  induction fuel with
  | zero => intro ntid buys sells hb hs; rw [matchLoop_zero]; exact ⟨hb, hs⟩
  | succ fuel ih =>
    intro ntid buys sells hb hs
    match buys, sells with
    | [], sells => rw [matchLoop_nilB]; exact ⟨hb, hs⟩
    | hd :: brest, [] => rw [matchLoop_nilS]; exact ⟨hb, hs⟩
    | (bp, bl) :: brest, (sp, sl) :: srest =>
      by_cases hlt : bp < sp
      · rw [matchLoop_stop hlt]; exact ⟨hb, hs⟩
      · by_cases hemp : bl = [] ∨ sl = []
        · rw [matchLoop_dropEmpty hlt hemp]
          refine ih ntid _ _ ?_ ?_
          · split_ifs
            · exact sideInv_tail hb
            · exact hb
          · split_ifs
            · exact sideInv_tail hs
            · exact hs
        · rw [matchLoop_process hlt hemp]
          obtain ⟨hbl1, hsl1⟩ :=
            scanBuys_inv bl ntid sl (sideInv_head hb) (sideInv_head hs)
          refine ih _ _ _ ?_ ?_
          · exact sideInv_if (sideInv_tail hb)
              (fun o ho => hbl1 o (mem_removeFilled ho))
          · exact sideInv_if (sideInv_tail hs)
              (fun o ho => hsl1 o (mem_removeFilled ho))

/-! ### Invariants across addOrder, matchOrders, cleanupFilledOrders -/

theorem sideInv_apply {S : Side} (h : sideInv S) {o : Order} (ho : inSide S o) :
    orderInv o := by
  obtain ⟨pl, hpl, hm⟩ := ho
  exact h pl hpl o hm

theorem insertLevelDesc_mem {o o' : Order} :
    ∀ S : Side, inSide (insertLevelDesc o S) o' → inSide S o' ∨ o' = o := by
  intro S
  induction S with
  | nil =>
    intro h
    obtain ⟨pl, hpl, ho⟩ := h
    rcases List.mem_cons.mp hpl with heq | hpl
    · subst heq
      exact Or.inr (List.mem_singleton.mp ho)
    · cases hpl
  | cons hd rest ih =>
    obtain ⟨q, l⟩ := hd
    intro h
    unfold insertLevelDesc at h
    split_ifs at h with h1 h2
    · obtain ⟨pl, hpl, ho⟩ := h
      rcases List.mem_cons.mp hpl with heq | hpl
      · subst heq
        exact Or.inr (List.mem_singleton.mp ho)
      · exact Or.inl ⟨pl, hpl, ho⟩
    · obtain ⟨pl, hpl, ho⟩ := h
      rcases List.mem_cons.mp hpl with heq | hpl
      · subst heq
        rcases List.mem_append.mp ho with hm | hm
        · exact Or.inl (inSide_head hm)
        · exact Or.inr (List.mem_singleton.mp hm)
      · exact Or.inl (inSide_cons_tail ⟨pl, hpl, ho⟩)
    · obtain ⟨pl, hpl, ho⟩ := h
      rcases List.mem_cons.mp hpl with heq | hpl
      · subst heq
        exact Or.inl (inSide_head ho)
      · rcases ih ⟨pl, hpl, ho⟩ with hin | heq
        · exact Or.inl (inSide_cons_tail hin)
        · exact Or.inr heq

theorem insertLevelAsc_mem {o o' : Order} :
    ∀ S : Side, inSide (insertLevelAsc o S) o' → inSide S o' ∨ o' = o := by
  intro S
  induction S with
  | nil =>
    intro h
    obtain ⟨pl, hpl, ho⟩ := h
    rcases List.mem_cons.mp hpl with heq | hpl
    · subst heq
      exact Or.inr (List.mem_singleton.mp ho)
    · cases hpl
  | cons hd rest ih =>
    obtain ⟨q, l⟩ := hd
    intro h
    unfold insertLevelAsc at h
    split_ifs at h with h1 h2
    · obtain ⟨pl, hpl, ho⟩ := h
      rcases List.mem_cons.mp hpl with heq | hpl
      · subst heq
        exact Or.inr (List.mem_singleton.mp ho)
      · exact Or.inl ⟨pl, hpl, ho⟩
    · obtain ⟨pl, hpl, ho⟩ := h
      rcases List.mem_cons.mp hpl with heq | hpl
      · subst heq
        rcases List.mem_append.mp ho with hm | hm
        · exact Or.inl (inSide_head hm)
        · exact Or.inr (List.mem_singleton.mp hm)
      · exact Or.inl (inSide_cons_tail ⟨pl, hpl, ho⟩)
    · obtain ⟨pl, hpl, ho⟩ := h
      rcases List.mem_cons.mp hpl with heq | hpl
      · subst heq
        exact Or.inl (inSide_head ho)
      · rcases ih ⟨pl, hpl, ho⟩ with hin | heq
        · exact Or.inl (inSide_cons_tail hin)
        · exact Or.inr heq

theorem mkOrder_inv (id t_id : ℤ) (ty : OrderType) (p : ℚ) (q : ℤ) (ts : ℚ)
    (hq : 0 < q) : orderInv (mkOrder id t_id ty p q ts) := by
  have h1 : orderInv (mkOrder id t_id ty p q ts) ↔
      (0 ≤ (0 : ℤ) ∧ (0 : ℤ) ≤ q ∧
        (OrderStatus.PENDING = OrderStatus.FILLED ↔ (0 : ℤ) = q)) := Iff.rfl
  rw [h1]
  refine ⟨le_rfl, le_of_lt hq, ?_⟩
  constructor
  · intro hcon; exact OrderStatus.noConfusion hcon
  · intro heq; exact absurd heq (by omega)

theorem addOrder_inv (bk : OrderBook) (o : Order) (hinv : bookInv bk)
    (ho : orderInv o) : bookInv (bk.addOrder o).1 := by
  obtain ⟨hb, hs⟩ := hinv
  simp only [OrderBook.addOrder]
  split_ifs with hty
  · refine ⟨fun pl hpl o' ho' => ?_, hs⟩
    rcases insertLevelDesc_mem bk.buy_orders ⟨pl, hpl, ho'⟩ with hin | heq
    · exact sideInv_apply hb hin
    · subst heq; exact ho
  · refine ⟨hb, fun pl hpl o' ho' => ?_⟩
    rcases insertLevelAsc_mem bk.sell_orders ⟨pl, hpl, ho'⟩ with hin | heq
    · exact sideInv_apply hs hin
    · subst heq; exact ho

theorem cleanupSide_inv {S : Side} (h : sideInv S) : sideInv (cleanupSide S) := by
  intro pl' hpl' o ho
  unfold cleanupSide at hpl'
  obtain ⟨pl, hpl, heq⟩ := List.mem_map.mp (List.mem_filter.mp hpl').1
  subst heq
  exact h pl hpl o (mem_removeFilled ho)

theorem matchOrders_inv (bk : OrderBook) (h : bookInv bk) :
    bookInv bk.matchOrders.1 := by
  obtain ⟨hb, hs⟩ := h
  unfold OrderBook.matchOrders
  exact matchLoop_inv _ bk.next_trade_id bk.buy_orders bk.sell_orders hb hs

theorem emptyBook_inv : bookInv emptyBook :=
  ⟨fun pl h => absurd h (List.not_mem_nil pl), fun pl h => absurd h (List.not_mem_nil pl)⟩

theorem foldl_ops_inv : ∀ ops : List BookOp, ∀ bk : OrderBook, bookInv bk →
    (∀ op ∈ ops, opValid op) → bookInv (ops.foldl applyOp bk) := by
  intro ops
  induction ops with
  | nil => intro bk h _; exact h
  | cons op rest ih =>
    intro bk h hv
    rw [List.foldl_cons]
    refine ih (applyOp bk op) ?_ (fun op' h' => hv op' (List.mem_cons_of_mem op h'))
    cases op with
    | submit tid ty p q ts =>
      exact addOrder_inv bk _ h
        (mkOrder_inv 0 tid ty p q ts (hv _ (List.mem_cons_self _ _)))
    | matchO => exact matchOrders_inv bk h
    | cleanup =>
      obtain ⟨hb, hs⟩ := h
      exact ⟨cleanupSide_inv hb, cleanupSide_inv hs⟩

/-! ### Ensemble partition arithmetic -/

theorem startIndex_succ (n w r : ℕ) :
    startIndex n w (r + 1) = startIndex n w r + simsForRank n w r := by
  unfold startIndex simsForRank
  rw [Nat.succ_mul]
  by_cases h : r < n % w
  · rw [if_pos h, min_eq_left (by omega), min_eq_left (by omega)]
    omega
  · rw [if_neg h, min_eq_right (by omega), min_eq_right (by omega)]
    omega

theorem startIndex_mono (n w : ℕ) {r s : ℕ} (h : r ≤ s) :
    startIndex n w r ≤ startIndex n w s := by
  unfold startIndex
  exact Nat.add_le_add (mul_le_mul_right' h _) (min_le_min h le_rfl)

theorem startIndex_top (n w : ℕ) (hw : 1 ≤ w) : startIndex n w w = n := by
  unfold startIndex
  rw [min_eq_right (le_of_lt (Nat.mod_lt n hw))]
  exact Nat.div_add_mod n w

theorem covered_below (n w : ℕ) :
    ∀ r k, k < startIndex n w r →
      ∃ s, s < r ∧ startIndex n w s ≤ k ∧ k < startIndex n w s + simsForRank n w s := by
  intro r
  induction r with
  | zero => intro k hk; simp [startIndex] at hk
  | succ r ih =>
    intro k hk
    by_cases h : k < startIndex n w r
    · obtain ⟨s, hs, h1, h2⟩ := ih k h
      exact ⟨s, Nat.lt_succ_of_lt hs, h1, h2⟩
    · push_neg at h
      exact ⟨r, Nat.lt_succ_self r, h, by rwa [← startIndex_succ]⟩

/-! ## The claims -/

/-- C1: after every call to `OrderBook::matchOrders()`, whatever book state
the call started from, either the buy side is empty, or the sell side is
empty, or the best bid price is strictly less than the best ask price — no
crossed book persists after the call returns. -/
theorem C1_no_crossed_book_after_match (bk : OrderBook) :
    bk.matchOrders.1.buy_orders = [] ∨ bk.matchOrders.1.sell_orders = [] ∨
    bk.matchOrders.1.getBestBid < bk.matchOrders.1.getBestAsk := by
  unfold OrderBook.matchOrders OrderBook.getBestBid OrderBook.getBestAsk
  exact matchLoop_uncrossed _ bk.next_trade_id bk.buy_orders bk.sell_orders le_rfl

/-- C2: every trade emitted by `matchOrders` executes at the limit price of
the matched resting sell order, with quantity `min(remaining_buy, remaining_sell)` taken
at the moment of the match (first conjunct, for the single-match step on two
unfilled orders), and globally every emitted trade has positive quantity,
references a resting sell order of the pre-call book whose limit price it
carries, and never exceeds the initial remaining quantity of either matched
order (second conjunct). -/
theorem C2_trade_price_and_quantity :
    (∀ (ntid : ℤ) (b s : Order), b.isFilled = false → s.isFilled = false →
      (matchStep ntid b s).1.price = s.price ∧
      (matchStep ntid b s).1.quantity =
        min b.getRemainingQuantity s.getRemainingQuantity ∧
      0 < (matchStep ntid b s).1.quantity) ∧
    (∀ bk : OrderBook, ∀ t ∈ bk.matchOrders.2,
      0 < t.quantity ∧
      (∃ s, inSide bk.sell_orders s ∧ t.sell_order_id = s.order_id ∧
        t.price = s.price ∧ t.quantity ≤ s.getRemainingQuantity) ∧
      (∃ b, inSide bk.buy_orders b ∧ t.buy_order_id = b.order_id ∧
        t.quantity ≤ b.getRemainingQuantity)) := by
  constructor
  · intro ntid b s hb hs
    have hb' : ¬ b.isFilled = true := by rw [hb]; exact Bool.false_ne_true
    have hs' : ¬ s.isFilled = true := by rw [hs]; exact Bool.false_ne_true
    exact ⟨rfl, rfl, min_rem_pos hb' hs'⟩
  · intro bk t ht
    obtain ⟨h1, hbuy, hsell⟩ :=
      matchLoop_trades (bk.buy_orders.length + bk.sell_orders.length)
        bk.next_trade_id bk.buy_orders bk.sell_orders t ht
    exact ⟨h1, hsell, hbuy⟩

/-- A two-order book used to witness C2: buy `(price 100, qty 5)` from trader
7, sell `(price 95, qty 5)` from trader 8. -/
def bkC2 : OrderBook :=
  ((emptyBook.addOrder (mkOrder 0 7 OrderType.BUY 100 5 0)).1.addOrder
    (mkOrder 0 8 OrderType.SELL 95 5 0)).1

/-- Witness for C2 at the concrete book `bkC2` and its unique emitted trade. -/
theorem C2_trade_price_and_quantity_witness :
    ((⟨1, 1, 2, 7, 8, 95, 5, 0⟩ : ExecutedTrade) ∈ bkC2.matchOrders.2) ∧
    (0 < (⟨1, 1, 2, 7, 8, 95, 5, 0⟩ : ExecutedTrade).quantity ∧
     (∃ s, inSide bkC2.sell_orders s ∧
       (⟨1, 1, 2, 7, 8, 95, 5, 0⟩ : ExecutedTrade).sell_order_id = s.order_id ∧
       (⟨1, 1, 2, 7, 8, 95, 5, 0⟩ : ExecutedTrade).price = s.price ∧
       (⟨1, 1, 2, 7, 8, 95, 5, 0⟩ : ExecutedTrade).quantity ≤ s.getRemainingQuantity) ∧
     (∃ b, inSide bkC2.buy_orders b ∧
       (⟨1, 1, 2, 7, 8, 95, 5, 0⟩ : ExecutedTrade).buy_order_id = b.order_id ∧
       (⟨1, 1, 2, 7, 8, 95, 5, 0⟩ : ExecutedTrade).quantity ≤ b.getRemainingQuantity)) :=
  ⟨by decide, C2_trade_price_and_quantity.2 bkC2 ⟨1, 1, 2, 7, 8, 95, 5, 0⟩ (by decide)⟩

/-- C3: in every sequence of submissions (positive quantity, fresh orders),
`matchOrders` and `cleanupFilledOrders` calls from the empty book, every
order held by the book satisfies `0 ≤ filled_quantity ≤ quantity` and has
status `FILLED` exactly when `filled_quantity = quantity`. -/
theorem C3_fill_invariant (ops : List BookOp) (hv : ∀ op ∈ ops, opValid op) :
    ∀ pl ∈ (runOps ops).buy_orders ++ (runOps ops).sell_orders, ∀ o ∈ pl.2,
      0 ≤ o.filled_quantity ∧ o.filled_quantity ≤ o.quantity ∧
      (o.status = OrderStatus.FILLED ↔ o.filled_quantity = o.quantity) := by
  intro pl hpl o ho
  have hinv : bookInv (runOps ops) := foldl_ops_inv ops emptyBook emptyBook_inv hv
  rcases List.mem_append.mp hpl with h | h
  · exact hinv.1 pl h o ho
  · exact hinv.2 pl h o ho

/-- An operation sequence used to witness C3. -/
def opsC3 : List BookOp :=
  [BookOp.submit 1 OrderType.BUY 101 10 0, BookOp.submit 2 OrderType.SELL 99 6 0,
   BookOp.matchO, BookOp.cleanup]

/-- Witness for C3 on a concrete valid run whose surviving buy order is
partially filled. -/
theorem C3_fill_invariant_witness :
    (∀ op ∈ opsC3, opValid op) ∧
    (((101 : ℚ), [(⟨1, 1, OrderType.BUY, 101, 10, 6, OrderStatus.PARTIALLY_FILLED, 0⟩ : Order)]) ∈
      (runOps opsC3).buy_orders ++ (runOps opsC3).sell_orders) ∧
    ((⟨1, 1, OrderType.BUY, 101, 10, 6, OrderStatus.PARTIALLY_FILLED, 0⟩ : Order) ∈
      [(⟨1, 1, OrderType.BUY, 101, 10, 6, OrderStatus.PARTIALLY_FILLED, 0⟩ : Order)]) ∧
    (0 ≤ (⟨1, 1, OrderType.BUY, 101, 10, 6, OrderStatus.PARTIALLY_FILLED, 0⟩ : Order).filled_quantity ∧
     (⟨1, 1, OrderType.BUY, 101, 10, 6, OrderStatus.PARTIALLY_FILLED, 0⟩ : Order).filled_quantity ≤
       (⟨1, 1, OrderType.BUY, 101, 10, 6, OrderStatus.PARTIALLY_FILLED, 0⟩ : Order).quantity ∧
     ((⟨1, 1, OrderType.BUY, 101, 10, 6, OrderStatus.PARTIALLY_FILLED, 0⟩ : Order).status = OrderStatus.FILLED ↔
       (⟨1, 1, OrderType.BUY, 101, 10, 6, OrderStatus.PARTIALLY_FILLED, 0⟩ : Order).filled_quantity =
       (⟨1, 1, OrderType.BUY, 101, 10, 6, OrderStatus.PARTIALLY_FILLED, 0⟩ : Order).quantity)) :=
  ⟨by decide, by decide, by decide,
   C3_fill_invariant opsC3 (by decide)
     ((101 : ℚ), [⟨1, 1, OrderType.BUY, 101, 10, 6, OrderStatus.PARTIALLY_FILLED, 0⟩])
     (by decide) ⟨1, 1, OrderType.BUY, 101, 10, 6, OrderStatus.PARTIALLY_FILLED, 0⟩
     (by decide)⟩

/-- C4 (amended): for a trade settled in the feedback phase, provided the
cash of the buyer covers `price × quantity` and the holdings of the seller
cover `quantity`, the buyer cash decreases by exactly `price × quantity` and
the buyer holdings increase by `quantity`, while the seller cash increases by exactly
`price × quantity` and holdings decrease by `quantity`. -/
theorem C4_settlement_exact (buyer seller : Trader) (price : ℚ) (qty : ℤ)
    (hb : price * (qty : ℚ) ≤ buyer.cash) (hs : qty ≤ seller.holdings) :
    (buyer.executeOrder true price qty).cash = buyer.cash - price * (qty : ℚ) ∧
    (buyer.executeOrder true price qty).holdings = buyer.holdings + qty ∧
    (seller.executeOrder false price qty).cash = seller.cash + price * (qty : ℚ) ∧
    (seller.executeOrder false price qty).holdings = seller.holdings - qty := by
  unfold Trader.executeOrder Trader.executeTrade
  by_cases hq : qty = 0
  · subst hq
    norm_num
  · simp [hq, hb, hs]

/-- Witness for C4 with a funded buyer and a stocked seller. -/
theorem C4_settlement_exact_witness :
    ((5 : ℚ) * ((2 : ℤ) : ℚ) ≤ (100 : ℚ) ∧ (2 : ℤ) ≤ (10 : ℤ)) ∧
    ((Trader.executeOrder ⟨0, 100, 0, 0, 0⟩ true 5 2).cash = 100 - 5 * ((2 : ℤ) : ℚ) ∧
     (Trader.executeOrder ⟨0, 100, 0, 0, 0⟩ true 5 2).holdings = 0 + 2 ∧
     (Trader.executeOrder ⟨1, 0, 10, 0, 0⟩ false 5 2).cash = 0 + 5 * ((2 : ℤ) : ℚ) ∧
     (Trader.executeOrder ⟨1, 0, 10, 0, 0⟩ false 5 2).holdings = 10 - 2) :=
  ⟨⟨by norm_num, by norm_num⟩,
   C4_settlement_exact ⟨0, 100, 0, 0, 0⟩ ⟨1, 0, 10, 0, 0⟩ 5 2 (by norm_num) (by norm_num)⟩

/-- Counterexample to C4 as stated: a buyer with zero cash settling a buy of
`price 1 × quantity 1` keeps its cash unchanged instead of paying — the
settlement is skipped, so cash does not decrease by `price × quantity`. -/
theorem C4_settlement_counterexample :
    ¬ ((Trader.executeOrder ⟨0, 0, 0, 0, 0⟩ true 1 1).cash =
        (0 : ℚ) - 1 * ((1 : ℤ) : ℚ)) := by
  unfold Trader.executeOrder Trader.executeTrade
  norm_num

/-- C5 (code-bug evidence): the seed actually installed in the trader RNG by
`trader.cpp` is the fresh `std::random_device` draw, independent of the
configured per-trader seed, and likewise for the market RNG; two runs that
share every configuration parameter but observe different device entropy
use different engine seeds. -/
theorem C5_engine_seed_ignores_config :
    (∀ s e : ℕ, traderEngineSeed s e = e ∧ marketEngineSeed e = e) ∧
    (∃ e1 e2 : ℕ, e1 ≠ e2 ∧
      traderEngineSeed 12345 e1 ≠ traderEngineSeed 12345 e2) :=
  ⟨fun _ _ => ⟨rfl, rfl⟩, 0, 1, by decide, by decide⟩

/-- The base price of a market never changes across updates. -/
theorem updateRun_base (pre : List (ℤ × ℤ × ℚ)) :
    ∀ m : Market, (m.updateRun pre).base_price = m.base_price := by
  induction pre with
  | nil => intro m; rfl
  | cons t rest ih =>
    intro m
    rw [Market.updateRun, List.foldl_cons]
    exact ih (m.updatePrice t.1 t.2.1 t.2.2)

/-- C6 (amended): for every market constructed with base price `B ≥ 0` and
every sequence of `updatePrice` calls with arbitrary order flow and noise,
the price after each call lies in `[0.2 × B, 3.0 × B]`. -/
theorem C6_price_bounds (B : ℚ) (hB : 0 ≤ B) (pre : List (ℤ × ℤ × ℚ))
    (buy sell : ℤ) (noise : ℚ) :
    B * (1/5) ≤ (((mkMarket B).updateRun pre).updatePrice buy sell noise).current_price ∧
    (((mkMarket B).updateRun pre).updatePrice buy sell noise).current_price ≤ B * 3 := by
  have hbase : ((mkMarket B).updateRun pre).base_price = B :=
    updateRun_base pre (mkMarket B)
  unfold Market.updatePrice
  simp only [hbase]
  constructor
  · exact le_max_left _ _
  · apply max_le
    · exact mul_le_mul_of_nonneg_left (by norm_num) hB
    · exact min_le_right _ _

/-- Witness for C6 at base price 100 after a single update. -/
theorem C6_price_bounds_witness :
    (0 : ℚ) ≤ 100 ∧
    ((100 : ℚ) * (1/5) ≤ (((mkMarket 100).updateRun []).updatePrice 0 0 0).current_price ∧
     (((mkMarket 100).updateRun []).updatePrice 0 0 0).current_price ≤ (100 : ℚ) * 3) :=
  ⟨by norm_num, C6_price_bounds 100 (by norm_num) [] 0 0 0⟩

/-- Counterexample to C6 as stated for every base price: with base price
`-1`, one zero-flow, zero-noise update clamps the price to `-1/5`, which
violates `current_price ≤ 3.0 × B = -3`. -/
theorem C6_price_bounds_counterexample :
    ¬ ((-1 : ℚ) * (1/5) ≤ ((mkMarket (-1)).updatePrice 0 0 0).current_price ∧
       ((mkMarket (-1)).updatePrice 0 0 0).current_price ≤ (-1 : ℚ) * 3) := by
  unfold Market.updatePrice mkMarket
  norm_num

/-- The book of the concrete C7 scenario: one buy `(price 101, qty 10)`,
then one sell `(price 99, qty 6)`. -/
def bk7 : OrderBook :=
  ((emptyBook.addOrder (mkOrder 0 1 OrderType.BUY 101 10 0)).1.addOrder
    (mkOrder 0 2 OrderType.SELL 99 6 0)).1

/-- C7: on the book with one buy `(101, 10)` and one sell `(99, 6)`,
`matchOrders()` emits exactly one trade at price 99 for quantity 6; the buy
order stays in the book partially filled with `filled_quantity = 6`, the
sell side is empty (the sell order was purged), and the matched sell order
reached status `FILLED`. -/
theorem C7_concrete_scenario :
    bk7.matchOrders.2 = [⟨1, 1, 2, 1, 2, 99, 6, 0⟩] ∧
    bk7.matchOrders.1.buy_orders =
      [(101, [⟨1, 1, OrderType.BUY, 101, 10, 6, OrderStatus.PARTIALLY_FILLED, 0⟩])] ∧
    bk7.matchOrders.1.sell_orders = [] ∧
    (matchStep 1 (mkOrder 1 1 OrderType.BUY 101 10 0)
      (mkOrder 2 2 OrderType.SELL 99 6 0)).2.2.status = OrderStatus.FILLED :=
  ⟨by decide, by decide, by decide, by decide⟩

/-- C8: the ensemble partition of `main.cpp` gives worker `r` the contiguous
range starting at `r(N/W) + min(r, N mod W)` of length `N/W` plus one when
`r < N mod W`; consecutive ranges abut (which makes them pairwise disjoint),
every index below `N` lies in exactly one range, and `N = 10, W = 3` yields
sizes 4, 3, 3 with starts 0, 4, 7. -/
theorem C8_ensemble_partition (n w : ℕ) (hw : 1 ≤ w) :
    (∀ r s : ℕ, r < s → s < w →
      startIndex n w r + simsForRank n w r ≤ startIndex n w s) ∧
    (∀ k r s : ℕ, r < w → s < w →
      startIndex n w r ≤ k → k < startIndex n w r + simsForRank n w r →
      startIndex n w s ≤ k → k < startIndex n w s + simsForRank n w s → r = s) ∧
    (∀ k : ℕ, k < n ↔ ∃ r, r < w ∧ startIndex n w r ≤ k ∧
      k < startIndex n w r + simsForRank n w r) ∧
    (simsForRank 10 3 0 = 4 ∧ simsForRank 10 3 1 = 3 ∧ simsForRank 10 3 2 = 3 ∧
     startIndex 10 3 0 = 0 ∧ startIndex 10 3 1 = 4 ∧ startIndex 10 3 2 = 7) := by
  have hdisj : ∀ r s : ℕ, r < s → s < w →
      startIndex n w r + simsForRank n w r ≤ startIndex n w s := by
    intro r s hrs _
    rw [← startIndex_succ]
    exact startIndex_mono n w (by omega)
  refine ⟨hdisj, ?_, ?_, by decide⟩
  · intro k r s hr hs hr1 hr2 hs1 hs2
    rcases lt_trichotomy r s with h | h | h
    · exact absurd (lt_of_lt_of_le hr2 (hdisj r s h hs)) (not_lt.mpr hs1)
    · exact h
    · exact absurd (lt_of_lt_of_le hs2 (hdisj s r h hr)) (not_lt.mpr hr1)
  · intro k
    constructor
    · intro hk
      exact covered_below n w w k (by rwa [startIndex_top n w hw])
    · rintro ⟨r, hr, _, h2⟩
      calc k < startIndex n w r + simsForRank n w r := h2
        _ = startIndex n w (r + 1) := (startIndex_succ n w r).symm
        _ ≤ startIndex n w w := startIndex_mono n w hr
        _ = n := startIndex_top n w hw

/-- Witness for C8 at the concrete ensemble `N = 10, W = 3`. -/
theorem C8_ensemble_partition_witness :
    1 ≤ 3 ∧
    (simsForRank 10 3 0 = 4 ∧ simsForRank 10 3 1 = 3 ∧ simsForRank 10 3 2 = 3 ∧
     startIndex 10 3 0 = 0 ∧ startIndex 10 3 1 = 4 ∧ startIndex 10 3 2 = 7) :=
  ⟨by decide, (C8_ensemble_partition 10 3 (by decide)).2.2.2⟩

/-- C9: `Trader::executeTrade` is a complete no-op — cash, holdings and the
trade counter all unchanged — whenever the trade has zero quantity, or is a
buy whose cost exceeds the available cash, or a sell whose quantity exceeds
the current holdings. -/
theorem C9_settlement_noop (tr : Trader) (t : Trade)
    (h : t.quantity = 0 ∨ (t.is_buy = true ∧ tr.cash < t.price * (t.quantity : ℚ)) ∨
         (t.is_buy = false ∧ tr.holdings < t.quantity)) :
    tr.executeTrade t = tr := by
  unfold Trader.executeTrade
  by_cases hq : t.quantity = 0
  · rw [if_pos hq]
  · rw [if_neg hq]
    rcases h with h | ⟨hb, h⟩ | ⟨hb, h⟩
    · exact absurd h hq
    · rw [if_pos hb, if_neg (not_le.mpr h)]
    · rw [if_neg (by rw [hb]; exact Bool.false_ne_true), if_neg (not_le.mpr h)]

/-- Witness for C9: a cashless trader settling a 1-unit buy at price 1. -/
theorem C9_settlement_noop_witness :
    ((1 : ℤ) = 0 ∨ (true = true ∧ (0 : ℚ) < 1 * ((1 : ℤ) : ℚ)) ∨
      (true = false ∧ (0 : ℤ) < 1)) ∧
    Trader.executeTrade ⟨0, 0, 0, 0, 0⟩ ⟨5, 1, 1, true, 0⟩ = ⟨0, 0, 0, 0, 0⟩ :=
  ⟨Or.inr (Or.inl ⟨rfl, by norm_num⟩),
   C9_settlement_noop ⟨0, 0, 0, 0, 0⟩ ⟨5, 1, 1, true, 0⟩
     (Or.inr (Or.inl ⟨rfl, by norm_num⟩))⟩

/-- C10: `setTimeScale(scale)` sets the tick duration to `0.1` for every
`scale ≤ 0` (exactly as if the scale were `1.0`) and to `0.1 / scale` for
every positive scale. -/
theorem C10_time_scale (sim : SimClock) (scale : ℚ) :
    (scale ≤ 0 → setTimeScale sim scale = { sim with time_step := 1/10 }) ∧
    (0 < scale → setTimeScale sim scale = { sim with time_step := (1/10) / scale }) := by
  unfold setTimeScale
  constructor
  · intro h
    rw [if_pos h]
    norm_num
  · intro h
    rw [if_neg (not_le.mpr h)]

/-- Witness for C10 at scales `-2` and `4`. -/
theorem C10_time_scale_witness :
    ((-2 : ℚ) ≤ 0 ∧ setTimeScale ⟨0, 1⟩ (-2) = { current_time := 0, time_step := 1/10 }) ∧
    ((0 : ℚ) < 4 ∧ setTimeScale ⟨0, 1⟩ 4 = { current_time := 0, time_step := (1/10) / 4 }) :=
  ⟨⟨by norm_num, (C10_time_scale ⟨0, 1⟩ (-2)).1 (by norm_num)⟩,
   ⟨by norm_num, (C10_time_scale ⟨0, 1⟩ 4).2 (by norm_num)⟩⟩

end TradingSim
